import Mathlib

/-!
Verification development for the tradingview-mcp repository.

Shallow embedding of:
* `TradingViewScraper.convert_link_to_image_url` (src/tview_scraper.py) — the
  link normalizer rewriting share links `.../x/<id>` to snapshot asset URLs;
* `TradingViewScraper._get_clipboard_content` and its two per-attempt handlers
  (`_handle_save_shortcut_method`, `_handle_traditional_method`) — the
  clipboard-extraction state machine;
* `analyze_image_with_llm` (src/market_analyst.py) — the analysis dispatcher;
* `monitor_loop` (src/monitor_price.py) — the price-polling alert loop.

Strings are modelled as `List Char` at the core, with `String` wrappers at the
API boundary.  Recursions that walk a string use an explicit fuel argument
(always instantiated with the string length) so that all definitions compute.
-/

namespace TView

/-! ## Link normalizer (`convert_link_to_image_url`)

The Python code uses
`pattern = r"https://(?:www\.|in\.)?tradingview\.com/x/([a-zA-Z0-9]+)/?"`,
iterates `re.finditer(pattern, input_string)` over the original input, and for
each match replaces every occurrence of the full matched URL in the running
output with
`f"https://s3.tradingview.com/snapshots/{match_id[0].lower()}/{match_id}.png"`.
-/

/-- The regex character class `[a-zA-Z0-9]`. -/
def isAlnum (c : Char) : Bool := c.isAlpha || c.isDigit

/-- Header matched by `https://www\.tradingview\.com/x/`. -/
def header1 : List Char := "https://www.tradingview.com/x/".data

/-- Header matched by `https://in\.tradingview\.com/x/`. -/
def header2 : List Char := "https://in.tradingview.com/x/".data

/-- Header matched by `https://tradingview\.com/x/` (empty alternative). -/
def header0 : List Char := "https://tradingview.com/x/".data

/-- Try the three header alternatives at the head of `s`, in the order the
regex alternation `(?:www\.|in\.)?` tries them.  (At most one can succeed,
since the texts diverge right after `https://`.) -/
def tryHeader (s : List Char) : Option (List Char × List Char) :=
  if header1.isPrefixOf s then some (header1, s.drop header1.length)
  else if header2.isPrefixOf s then some (header2, s.drop header2.length)
  else if header0.isPrefixOf s then some (header0, s.drop header0.length)
  else none

/-- One regex match: the full matched text (`match.group(0)`) and the captured
id (`match.group(1)`). -/
structure LinkMatch where
  text : List Char
  id : List Char
deriving Repr, DecidableEq

/-- Match the pattern at the head of `s`: a header, then a nonempty maximal
alnum run (greedy `([a-zA-Z0-9]+)`), then an optional `/` (greedy `/?`).
Returns the match and the remainder of the string after it. -/
def tryMatch (s : List Char) : Option (LinkMatch × List Char) :=
  match tryHeader s with
  | none => none
  | some (h, r1) =>
    let mid := r1.takeWhile isAlnum
    if mid.isEmpty then none
    else
      match r1.dropWhile isAlnum with
      | '/' :: r3 => some (⟨h ++ mid ++ ['/'], mid⟩, r3)
      | r2 => some (⟨h ++ mid, mid⟩, r2)

/-- `re.finditer`: scan left to right; at each position try to match; on a
match, record it and resume after its end (non-overlapping).  Fuel-driven so
that it computes; `findMatches` instantiates the fuel with the length. -/
def findMatchesF : Nat → List Char → List LinkMatch
  | 0, _ => []
  | _ + 1, [] => []
  | fuel + 1, c :: cs =>
    match tryMatch (c :: cs) with
    | some (m, rest) => m :: findMatchesF fuel rest
    | none => findMatchesF fuel cs

/-- All matches of the share-link pattern in `s`, leftmost first. -/
def findMatches (s : List Char) : List LinkMatch := findMatchesF s.length s

/-- Fixed part of the replacement URL before the bucket character. -/
def snapPrefix : List Char := "https://s3.tradingview.com/snapshots/".data

/-- Fixed suffix of the replacement URL. -/
def pngSuffix : List Char := ".png".data

/-- `f"https://s3.tradingview.com/snapshots/{match_id[0].lower()}/{match_id}.png"` -/
def newLink (id : List Char) : List Char :=
  snapPrefix ++ (id.headD 'x').toLower :: '/' :: (id ++ pngSuffix)

/-- Python `str.replace(needle, r)`: replace every left-to-right
non-overlapping occurrence.  Fuel-driven; the `needle = []` guard is only for
totality (every needle passed in is a match text, hence nonempty). -/
def replaceAllF : Nat → List Char → List Char → List Char → List Char
  | 0, s, _, _ => s
  | _ + 1, [], _, _ => []
  | fuel + 1, c :: cs, needle, r =>
    if needle.isPrefixOf (c :: cs) then
      r ++ replaceAllF fuel ((c :: cs).drop needle.length) needle r
    else c :: replaceAllF fuel cs needle r

/-- Python `str.replace` (for nonempty needles). -/
def replaceAll (s needle r : List Char) : List Char :=
  if needle.isEmpty then s else replaceAllF s.length s needle r

/-- Python `needle in hay` (substring test). -/
def containsSub (needle : List Char) : List Char → Bool
  | [] => needle.isEmpty
  | c :: tl => needle.isPrefixOf (c :: tl) || containsSub needle tl

/-- Body of the `for match in re.finditer(...)` loop: replace the matched URL
everywhere in the running output, provided it still occurs there
(`if matched_url in output_string`). -/
def convertStep (out : List Char) (m : LinkMatch) : List Char :=
  if containsSub m.text out then replaceAll out m.text (newLink m.id) else out

/-- The whole rewrite loop of `convert_link_to_image_url` on a nonempty input. -/
def convertCore (s : List Char) : List Char :=
  (findMatches s).foldl convertStep s

/-- `TradingViewScraper.convert_link_to_image_url`.  `None` and the empty
string are both falsy in Python, so `if not input_string: return None` sends
both to `None`; any other input flows through the rewrite loop. -/
def convert_link_to_image_url : Option String → Option String
  | none => none
  | some s => if s.isEmpty then none else some (String.mk (convertCore s.data))

/-! ### Derived predicates about the share-link pattern -/

/-- `inst` is a full instance of the share-link regex
`https://(?:www\.|in\.)?tradingview\.com/x/([a-zA-Z0-9]+)/?`:
a header, a nonempty alnum id, and an optional trailing slash. -/
def IsShareLinkInstance (inst : List Char) : Prop :=
  ∃ h id opt, (h = header1 ∨ h = header2 ∨ h = header0) ∧ id ≠ [] ∧
    (∀ c ∈ id, isAlnum c = true) ∧ (opt = [] ∨ opt = ['/']) ∧ inst = h ++ id ++ opt

/-- Some substring of `x` matches the share-link pattern. -/
def HasShareLink (x : List Char) : Prop :=
  ∃ pre inst post, x = pre ++ inst ++ post ∧ IsShareLinkInstance inst

/-! ## Python helpers shared by the clipboard model -/

/-- The characters Python `str.strip()` removes by default (ASCII whitespace). -/
def pyIsSpace (c : Char) : Bool :=
  c = ' ' || c = '\t' || c = '\n' || c = '\r' || c = '\x0b' || c = '\x0c'

/-- Python `str.strip()`. -/
def pyStrip (s : List Char) : List Char :=
  ((s.dropWhile pyIsSpace).reverse.dropWhile pyIsSpace).reverse

/-- Python truthiness of `s and s.strip()` for a string `s`. -/
def strTruthy (s : String) : Bool :=
  !s.data.isEmpty && !(pyStrip s.data).isEmpty

/-! ## A model of `json.loads`, for the server-error envelope check

`_handle_traditional_method` runs `json.loads(clipboard_content)` and inspects
the resulting value.  We embed a JSON reader covering objects, arrays,
strings (with the single-character escapes), integers, booleans and null;
inputs outside this fragment (floats, `\u` escapes) fail to parse, which the
handler treats the same way as a `JSONDecodeError`: not an envelope. -/

inductive JVal where
  | jnull : JVal
  | jbool : Bool → JVal
  | jint : Int → JVal
  | jstr : List Char → JVal
  | jarr : List JVal → JVal
  | jobj : List (List Char × JVal) → JVal

/-- JSON insignificant whitespace. -/
def jsonWs (c : Char) : Bool := c = ' ' || c = '\t' || c = '\n' || c = '\r'

/-- Read the body of a JSON string after the opening quote. -/
def parseJStr : Nat → List Char → Option (List Char × List Char)
  | 0, _ => none
  | _ + 1, [] => none
  | fuel + 1, c :: rest =>
    if c = '"' then some ([], rest)
    else if c = '\\' then
      match rest with
      | [] => none
      | e :: rest2 =>
        let dec : Option Char :=
          if e = '"' then some '"' else if e = '\\' then some '\\'
          else if e = '/' then some '/' else if e = 'n' then some '\n'
          else if e = 't' then some '\t' else if e = 'r' then some '\r'
          else if e = 'b' then some '\x08' else if e = 'f' then some '\x0c'
          else none
        match dec with
        | none => none
        | some d =>
          match parseJStr fuel rest2 with
          | some (body, rem) => some (d :: body, rem)
          | none => none
    else
      match parseJStr fuel rest with
      | some (body, rem) => some (c :: body, rem)
      | none => none

/-- Read a JSON integer (digits after an optional minus sign); a following
`.`, `e` or `E` means a float, which this fragment rejects. -/
def parseJInt (s : List Char) : Option (Int × List Char) :=
  let (neg, s1) : Bool × List Char :=
    match s with
    | '-' :: t => (true, t)
    | _ => (false, s)
  let digs := s1.takeWhile Char.isDigit
  let rest := s1.dropWhile Char.isDigit
  if digs.isEmpty then none
  else
    match rest with
    | '.' :: _ => none
    | 'e' :: _ => none
    | 'E' :: _ => none
    | _ =>
      let n : Nat := digs.foldl (fun a c => a * 10 + (c.toNat - '0'.toNat)) 0
      some (if neg then -(n : Int) else (n : Int), rest)

mutual

/-- Read one JSON value (leading whitespace already skipped). -/
def parseJVal : Nat → List Char → Option (JVal × List Char)
  | 0, _ => none
  | _ + 1, [] => none
  | fuel + 1, c :: rest =>
    if c = '"' then
      match parseJStr fuel rest with
      | some (s, rem) => some (.jstr s, rem)
      | none => none
    else if c = 't' then
      match c :: rest with
      | 't' :: 'r' :: 'u' :: 'e' :: rem => some (.jbool true, rem)
      | _ => none
    else if c = 'f' then
      match c :: rest with
      | 'f' :: 'a' :: 'l' :: 's' :: 'e' :: rem => some (.jbool false, rem)
      | _ => none
    else if c = 'n' then
      match c :: rest with
      | 'n' :: 'u' :: 'l' :: 'l' :: rem => some (.jnull, rem)
      | _ => none
    else if c = '[' then
      match (rest.dropWhile jsonWs) with
      | ']' :: rem => some (.jarr [], rem)
      | s1 =>
        match parseJArr fuel s1 with
        | some (xs, rem) => some (.jarr xs, rem)
        | none => none
    else if c = '\x7b' then
      match (rest.dropWhile jsonWs) with
      | '\x7d' :: rem => some (.jobj [], rem)
      | s1 =>
        match parseJObj fuel s1 with
        | some (kvs, rem) => some (.jobj kvs, rem)
        | none => none
    else
      match parseJInt (c :: rest) with
      | some (n, rem) => some (.jint n, rem)
      | none => none

/-- Read the elements of a nonempty JSON array, positioned at an element. -/
def parseJArr : Nat → List Char → Option (List JVal × List Char)
  | 0, _ => none
  | fuel + 1, s =>
    match parseJVal fuel s with
    | none => none
    | some (v, rem) =>
      match rem.dropWhile jsonWs with
      | ',' :: rem2 =>
        match parseJArr fuel (rem2.dropWhile jsonWs) with
        | some (xs, rem3) => some (v :: xs, rem3)
        | none => none
      | ']' :: rem2 => some ([v], rem2)
      | _ => none

/-- Read the members of a nonempty JSON object, positioned at a key. -/
def parseJObj : Nat → List Char → Option (List (List Char × JVal) × List Char)
  | 0, _ => none
  | fuel + 1, s =>
    match s with
    | '"' :: s1 =>
      match parseJStr fuel s1 with
      | none => none
      | some (k, rem) =>
        match rem.dropWhile jsonWs with
        | ':' :: rem2 =>
          match parseJVal fuel (rem2.dropWhile jsonWs) with
          | none => none
          | some (v, rem3) =>
            match rem3.dropWhile jsonWs with
            | ',' :: rem4 =>
              match parseJObj fuel (rem4.dropWhile jsonWs) with
              | some (kvs, rem5) => some ((k, v) :: kvs, rem5)
              | none => none
            | '\x7d' :: rem4 => some ([(k, v)], rem4)
            | _ => none
        | _ => none
    | _ => none

end

/-- `json.loads`: one value, whitespace around it, nothing after. -/
def jsonLoads (s : String) : Option JVal :=
  match parseJVal (s.length + 1) (s.data.dropWhile jsonWs) with
  | some (v, rem) => if (rem.dropWhile jsonWs).isEmpty then some v else none
  | none => none

/-- Python `dict` lookup on a parsed object.  `json.loads` keeps the last
occurrence of a duplicated key, so we search from the right. -/
def jsonGet (k : String) (kvs : List (List Char × JVal)) : Option JVal :=
  (kvs.reverse.find? (fun p => p.1 == k.data)).map (·.2)

/-- Python `str(...)` on a JSON-decoded value, as used by
`"Server Error" in str(error_msg)`.  (String escaping subtleties of `repr`
inside containers are not reproduced; no claim depends on them.) -/
def pyStr : JVal → List Char
  | .jnull => "None".data
  | .jbool true => "True".data
  | .jbool false => "False".data
  | .jint n => (toString n).data
  | .jstr s => s
  | .jarr _ => "[...]".data
  | .jobj _ => "\x7b...\x7d".data

/-- The retryable-code membership test
`error_code in ["40001", 40001, "50000", 50000, "502", 502, "503", 503]`
(Python `==` does not identify strings with numbers). -/
def retryableCode : JVal → Bool
  | .jstr s => s == "40001".data || s == "50000".data || s == "502".data || s == "503".data
  | .jint n => n == 40001 || n == 50000 || n == 502 || n == 503
  | _ => false

/-- The server-error envelope test of `_handle_traditional_method`
(lines 697–727): parsed JSON object with `code` and `msg` keys,
`success is False`, and a retryable code or a message containing
`"Server Error"`. -/
def isServerErrorEnvelope (content : String) : Bool :=
  match jsonLoads content with
  | some (.jobj kvs) =>
    (jsonGet "code" kvs).isSome && (jsonGet "msg" kvs).isSome &&
    (match jsonGet "success" kvs with
     | some (.jbool false) => true
     | _ => false) &&
    (match jsonGet "code" kvs, jsonGet "msg" kvs with
     | some code, some msg =>
       retryableCode code || containsSub "Server Error".data (pyStr msg)
     | _, _ => false)
  | _ => false

/-! ## Clipboard extractor (`_get_clipboard_content` and its handlers)

The per-attempt interaction with the browser is modelled by an environment
recording what each clipboard operation would yield.  A `WebDriverException`
from a read is folded into a `none` result exactly where the code catches it
locally; the two exceptions the attempt loop catches
(`TradingViewClipboardServerError`, `WebDriverException`) appear as `ClipErr`.
The driver is assumed present (`get_chart_image_url` checks this before the
extractor runs). -/

/-- The two exception kinds caught by the attempt loop of
`_get_clipboard_content`. -/
inductive ClipErr where
  | serverError
  | webDriver
deriving Repr, DecidableEq

/-- Observable clipboard-protocol events, for stating trace properties:
clipboard cleared, capture shortcut sent, image clipboard read, text
clipboard read, alternative shortcuts tried. -/
inductive ClipEv where
  | evClear
  | evSend
  | evImgRead
  | evTextPoll
  | evAltSend
deriving Repr, DecidableEq

/-- Environment of one traditional-method attempt: the successive
`navigator.clipboard.readText()` results inside the bounded wait window
(`none` = `WebDriverException`), the final read after the window, whether
`_try_alternative_shortcuts` reports success, and the read after it. -/
structure TradState where
  pollReads : List (Option String)
  finalRead : Option String
  altSendOk : Bool
  altRead : Option String

/-- The first polled read that satisfies
`test_content and test_content.strip()` (the loop breaks there). -/
def firstTruthy : List (Option String) → Option String
  | [] => none
  | some s :: rest => if strTruthy s then some s else firstTruthy rest
  | none :: rest => firstTruthy rest

/-- Number of polls the wait loop performs (it stops at the first truthy
read, else exhausts the window). -/
def pollsUsed : List (Option String) → Nat
  | [] => 0
  | some s :: rest => if strTruthy s then 1 else 1 + pollsUsed rest
  | none :: rest => 1 + pollsUsed rest

/-- `clipboard_content` after the polling phase and, if needed, the final
read. -/
def clipboardAfterWait (t : TradState) : Option String :=
  match firstTruthy t.pollReads with
  | some s => some s
  | none => t.finalRead

/-- Text-poll events of the wait phase (one per poll, plus the final read
when no poll succeeded). -/
def waitEvents (t : TradState) : List ClipEv :=
  match firstTruthy t.pollReads with
  | some _ => List.replicate (pollsUsed t.pollReads) .evTextPoll
  | none => List.replicate (pollsUsed t.pollReads + 1) .evTextPoll

/-- The alternative-shortcut tail of `_handle_traditional_method`: try the
alternative shortcuts and, if one was sent, read the text clipboard once
more, returning it if truthy. -/
def tradAltTail (t : TradState) : Option String × List ClipEv :=
  if t.altSendOk then
    match t.altRead with
    | some s => (if strTruthy s then some s else none, [.evAltSend, .evTextPoll])
    | none => (none, [.evAltSend, .evTextPoll])
  else (none, [.evAltSend])

/-- `_handle_traditional_method`: poll for text; on truthy content run the
server-error envelope check (raising `TradingViewClipboardServerError` on a
match) and otherwise return the content; on no content, fall back to the
alternative shortcuts, whose read is returned without the envelope check. -/
def handle_traditional_method (t : TradState) :
    Except ClipErr (Option String) × List ClipEv :=
  match clipboardAfterWait t with
  | some s =>
    if strTruthy s then
      if isServerErrorEnvelope s then (.error .serverError, waitEvents t)
      else (.ok (some s), waitEvents t)
    else
      let (r, evs) := tradAltTail t
      (.ok r, waitEvents t ++ evs)
  | none =>
    let (r, evs) := tradAltTail t
    (.ok r, waitEvents t ++ evs)

/-- Standard base64 alphabet. -/
def b64Char (n : Nat) : Char :=
  ("ABCDEFGHIJKLMNOPQRSTUVWXYZabcdefghijklmnopqrstuvwxyz0123456789+/".data).getD n 'A'

/-- `base64.b64encode` on raw bytes. -/
def base64Encode : List UInt8 → List Char
  | [] => []
  | [a] =>
    let x := a.toNat
    [b64Char (x / 4), b64Char (x % 4 * 16), '=', '=']
  | [a, b] =>
    let x := a.toNat; let y := b.toNat
    [b64Char (x / 4), b64Char (x % 4 * 16 + y / 16), b64Char (y % 16 * 4), '=']
  | a :: b :: c :: rest =>
    let x := a.toNat; let y := b.toNat; let z := c.toNat
    b64Char (x / 4) :: b64Char (x % 4 * 16 + y / 16) ::
      b64Char (y % 16 * 4 + z / 64) :: b64Char (z % 64) :: base64Encode rest

/-- `_convert_clipboard_to_image_url`: build the base64 data URL.
(`base64.b64encode(...).decode("utf-8")` is total on bytes, so the
surrounding `try` never fires.) -/
def convert_clipboard_to_image_url (imageData : List UInt8) : String :=
  "data:image/png;base64," ++ String.mk (base64Encode imageData)

/-- `_handle_save_shortcut_method`: read the image clipboard once; on image
data return the data URL, else report no content.  (`_read_image_from_clipboard`
catches its `WebDriverException`s and returns `None`, folded into the
environment.) -/
def handle_save_shortcut_method (imgRead : Option (List UInt8)) :
    Option String × List ClipEv :=
  (imgRead.map convert_clipboard_to_image_url, [.evImgRead])

/-- Environment of one outer attempt: whether `_send_save_shortcut` raises a
`WebDriverException`, what the image clipboard holds, and the
traditional-method environment. -/
structure AttemptEnv where
  sendFails : Bool
  imgRead : Option (List UInt8)
  trad : TradState

/-- The body of one outer attempt of `_get_clipboard_content`: send the save
shortcut, then run the handler selected by `config["use_save_shortcut"]`. -/
def attemptStep (useSave : Bool) (e : AttemptEnv) :
    Except ClipErr (Option String) × List ClipEv :=
  if e.sendFails then (.error .webDriver, [.evSend])
  else if useSave then
    let (r, evs) := handle_save_shortcut_method e.imgRead
    (.ok r, .evSend :: evs)
  else
    let (r, evs) := handle_traditional_method e.trad
    (r, .evSend :: evs)

/-- The error raised after the attempt budget is exhausted
(`TradingViewScraperError("Failed to get clipboard content after multiple
attempts")`). -/
inductive CaptureFailure where
  | captureExhausted
deriving Repr, DecidableEq

/-- `MAX_CLIPBOARD_ATTEMPTS = 5`. -/
def MAX_CLIPBOARD_ATTEMPTS : Nat := 5

/-- The attempt loop: run attempt `i` with `n` attempts remaining; a truthy
result (`if result:`) is returned, any caught exception or missing content
moves to the next attempt; an exhausted budget raises. -/
def clipboardLoop (useSave : Bool) (envs : Nat → AttemptEnv) :
    Nat → Nat → Except CaptureFailure String × List ClipEv
  | _, 0 => (.error .captureExhausted, [])
  | i, n + 1 =>
    let (r, evs) := attemptStep useSave (envs i)
    match r with
    | .ok (some s) =>
      if s.isEmpty then
        let (r2, evs2) := clipboardLoop useSave envs (i + 1) n
        (r2, evs ++ evs2)
      else (.ok s, evs)
    | _ =>
      let (r2, evs2) := clipboardLoop useSave envs (i + 1) n
      (r2, evs ++ evs2)

/-- `_get_clipboard_content`. -/
def get_clipboard_content (useSave : Bool) (envs : Nat → AttemptEnv) :
    Except CaptureFailure String × List ClipEv :=
  clipboardLoop useSave envs 0 MAX_CLIPBOARD_ATTEMPTS

/-- Environment of one `get_chart_image_url` call: whether the one
clipboard-clear attempt fails (its `WebDriverException` is swallowed), and
the per-attempt environments. -/
structure CaptureEnv where
  clearFails : Bool
  attempts : Nat → AttemptEnv

/-- `get_chart_image_url`, from the clipboard-clear onward: clear the browser
clipboard once (best effort), run `_get_clipboard_content`, and map a scraper
error to `None` (the surrounding `except` returns `None`). -/
def get_chart_image_url (useSave : Bool) (env : CaptureEnv) :
    Option String × List ClipEv :=
  let (r, evs) := get_clipboard_content useSave env.attempts
  ((match r with | .ok s => some s | .error _ => none),
   (if env.clearFails then [] else [.evClear]) ++ evs)

/-! ## Analysis dispatcher (`analyze_image_with_llm`, src/market_analyst.py)

The function selects one provider from `LLM_PROVIDER`, runs that provider's
whole pipeline inside a single `try`, and catches every exception, returning
`f"Error during analysis: {e}"`.  Each pipeline is summarised by its outcome:
`Except String String` (error message or analysis text). -/

/-- The two provider pipelines. -/
inductive LLMBackend where
  | geminiB
  | openaiB
deriving Repr, DecidableEq

/-- `API_PROVIDER.lower()`, character by character (ASCII). -/
def pyLower (s : String) : List Char := s.data.map Char.toLower

/-- `API_PROVIDER.lower() == "gemini"` selects Gemini, anything else OpenAI. -/
def selectedBackend (provider : String) : LLMBackend :=
  if pyLower provider = "gemini".data then .geminiB else .openaiB

/-- The `try` body: run the selected provider's pipeline. -/
def analyzeTry (provider : String) (gemini openaiRes : Except String String) :
    Except String String :=
  if pyLower provider = "gemini".data then gemini else openaiRes

/-- `analyze_image_with_llm`, returning the result text and the list of
backends invoked.  `if not API_KEY` skips analysis for a missing or empty
key; otherwise the one selected backend runs and any exception is caught and
rendered into the returned string. -/
def analyze_image_with_llm (apiKey : Option String) (provider : String)
    (gemini openaiRes : Except String String) : String × List LLMBackend :=
  match apiKey with
  | none => ("Analysis skipped (No API Key)", [])
  | some k =>
    if k.isEmpty then ("Analysis skipped (No API Key)", [])
    else
      match analyzeTry provider gemini openaiRes with
      | .ok t => (t, [selectedBackend provider])
      | .error e => ("Error during analysis: " ++ e, [selectedBackend provider])

/-! ## Price monitor (`monitor_loop`, src/monitor_price.py)

One loop iteration: fetch the price; if it is truthy and inside
`[min_price, max_price]`, fire the alert and `time.sleep(60)`; in every
non-raising iteration also `time.sleep(interval)`; a raising iteration is
caught and sleeps 10 s.  Time is modelled as rational seconds. -/

/-- Outcome of `scraper.get_current_price` in one iteration: a price, a
falsy result (`None`, or `0.0` — both fail `if price:`), or an exception
caught by the loop body. -/
inductive FetchResult where
  | price (p : ℚ)
  | failed
  | raised
deriving Repr, DecidableEq

/-- Whether an iteration fires the alert: `if price:` and
`min_price <= price <= max_price`. -/
def firesAlert (minP maxP : ℚ) : FetchResult → Bool
  | .price p => decide (p ≠ 0 ∧ minP ≤ p ∧ p ≤ maxP)
  | .failed => false
  | .raised => false

/-- Time consumed by one iteration after its poll. -/
def iterDelay (minP maxP interval : ℚ) (r : FetchResult) : ℚ :=
  match r with
  | .raised => 10
  | r => (if firesAlert minP maxP r then 60 else 0) + interval

/-- Run `n` iterations of `monitor_loop` starting at time `t`, with
`prices i` the fetch outcome of iteration `i`.  Returns each iteration's
poll time together with whether it fired the alert. -/
def monitorRun (minP maxP interval : ℚ) (prices : Nat → FetchResult) :
    Nat → Nat → ℚ → List (ℚ × Bool)
  | _, 0, _ => []
  | i, n + 1, t =>
    (t, firesAlert minP maxP (prices i)) ::
      monitorRun minP maxP interval prices (i + 1) n
        (t + iterDelay minP maxP interval (prices i))

/-- `monitor_loop` observed for `n` iterations from time `0` with the default
poll interval of 30 s. -/
def monitor_loop (minP maxP : ℚ) (prices : Nat → FetchResult) (n : Nat) :
    List (ℚ × Bool) :=
  monitorRun minP maxP 30 prices 0 n 0

/-- The times at which alerts fire in a run. -/
def alertTimes (run : List (ℚ × Bool)) : List ℚ :=
  (run.filter (·.2)).map (·.1)


/-! ## Theorems -/

/-- **C10** (implicit): the link normalizer returns `None` iff its input is
`None` or the empty string; every non-empty input yields a (non-`None`)
string — the empty string, although it contains no share link, maps to
`None` rather than to itself. -/
theorem claim_C10_none_iff_empty :
    ∀ x : Option String, convert_link_to_image_url x = none ↔ (x = none ∨ x = some "") := by
  intro x
  cases x with
  | none => simp [convert_link_to_image_url]
  | some s =>
    by_cases h : s.isEmpty
    · have hs : s = "" := (String.isEmpty_iff s).mp h
      subst hs
      simp [convert_link_to_image_url]
      exact h
    · have hs : ¬ s = "" := fun he => h ((String.isEmpty_iff s).mpr he)
      simp [convert_link_to_image_url, h, hs]

/-- The input of the C8 counterexample: two share links, the first matched
URL a proper prefix of the second. -/
def c8Input : String :=
  "https://www.tradingview.com/x/A https://www.tradingview.com/x/AB"

/-- What the code produces on `c8Input`: the second link is corrupted by the
replace-all of the first matched URL, not rewritten to its own asset URL. -/
def c8Output : String :=
  "https://s3.tradingview.com/snapshots/a/A.png https://s3.tradingview.com/snapshots/a/A.pngB"

/-- **C8, counterexample**: the normalizer does **not** replace every distinct
share-link occurrence with its own asset URL.  `c8Input` contains two
matches, with ids `A` and `AB`, but the output never contains the asset URL
of the second id (`.../snapshots/a/AB.png`); the second link is mangled into
`.../snapshots/a/A.pngB` instead. -/
theorem claim_C8_counterexample :
    convert_link_to_image_url (some c8Input) = some c8Output ∧
    (findMatches c8Input.data).map LinkMatch.id = [['A'], ['A', 'B']] ∧
    containsSub "https://s3.tradingview.com/snapshots/a/AB.png".data c8Output.data = false := by
  decide

/-- **C8, amended**: the concrete mapping of the spec holds — the input
`https://www.tradingview.com/x/AbCd12/` normalizes to
`https://s3.tradingview.com/snapshots/a/AbCd12.png` (bucket = lowercased
first character of the id) — and in an input with two *disjoint,
non-overlapping* share links both occurrences are replaced with their
respective asset URLs, not just the first.  (When one matched URL is a
prefix of another, the longer match can be corrupted instead of replaced,
as the counterexample shows.) -/
theorem claim_C8_amended :
    convert_link_to_image_url (some "https://www.tradingview.com/x/AbCd12/") =
      some "https://s3.tradingview.com/snapshots/a/AbCd12.png" ∧
    convert_link_to_image_url
        (some "x https://www.tradingview.com/x/Abc y https://in.tradingview.com/x/Qz9/ z") =
      some ("x https://s3.tradingview.com/snapshots/a/Abc.png y " ++
        "https://s3.tradingview.com/snapshots/q/Qz9.png z") := by
  decide

/-- **C4, counterexample**: when every backend fails, the dispatcher does not
return one fixed failure sentinel: the returned text embeds the backend's
exception message, so two runs in which every backend fails can produce two
different result strings. -/
theorem claim_C4_counterexample :
    (analyze_image_with_llm (some "key") "gemini"
        (Except.error "boom") (Except.error "down")).1 ≠
      (analyze_image_with_llm (some "key") "gemini"
        (Except.error "crash") (Except.error "down")).1 := by
  decide

/-- **C4, amended**: `analyze_image_with_llm` never raises (it is total — the
single `try` catches every backend exception) and never returns `None`; but
when the selected backend fails, the returned string is the fixed *prefix*
`"Error during analysis: "` followed by that exception's message — not one
fixed sentinel string; with a missing API key it returns the fixed skip
message. -/
theorem claim_C4_amended (k p e₁ e₂ : String) (hk : k.isEmpty = false) :
    (analyze_image_with_llm (some k) p (Except.error e₁) (Except.error e₂)).1 =
      "Error during analysis: " ++ (if pyLower p = "gemini".data then e₁ else e₂) ∧
    (analyze_image_with_llm none p (Except.error e₁) (Except.error e₂)).1 =
      "Analysis skipped (No API Key)" := by
  refine ⟨?_, rfl⟩
  by_cases hp : pyLower p = "gemini".data <;>
    simp [analyze_image_with_llm, analyzeTry, hk, hp]

theorem claim_C4_amended_witness :
    (analyze_image_with_llm (some "key") "gemini"
        (Except.error "boom") (Except.error "down")).1 =
      "Error during analysis: " ++
        (if pyLower "gemini" = "gemini".data then "boom" else "down") ∧
    (analyze_image_with_llm none "gemini"
        (Except.error "boom") (Except.error "down")).1 =
      "Analysis skipped (No API Key)" :=
  claim_C4_amended "key" "gemini" "boom" "down" (by decide)

/-- A quota-style failure message from a backend. -/
def quotaMsg : String :=
  "429 You exceeded your current quota, please check your plan and billing details."

/-- **C5, counterexample**: with a Gemini quota failure and a healthy OpenAI
backend available, the dispatcher does *not* cool down and continue to the
next backend: it invokes only the provider-selected backend, returns its
error text, and the healthy backend's "ok" is never produced. -/
theorem claim_C5_counterexample :
    (analyze_image_with_llm (some "key") "gemini"
        (Except.error quotaMsg) (Except.ok "ok")).1 ≠ "ok" ∧
    (analyze_image_with_llm (some "key") "gemini"
        (Except.error quotaMsg) (Except.ok "ok")).2 = [LLMBackend.geminiB] ∧
    (analyze_image_with_llm (some "key") "gemini"
        (Except.error quotaMsg) (Except.ok "ok")).1 =
      "Error during analysis: " ++ quotaMsg := by
  refine ⟨by decide, rfl, rfl⟩

/-- **C5, amended**: per call the dispatcher invokes exactly one backend,
selected by the provider flag; on success it returns that backend's text
immediately, on any failure (quota or otherwise) it returns the error string
immediately — there is no cooldown and no fallback, so the other backend's
behaviour is irrelevant to the result. -/
theorem claim_C5_amended (k p : String) (g o : Except String String)
    (hk : k.isEmpty = false) :
    (analyze_image_with_llm (some k) p g o).2 = [selectedBackend p] ∧
    (selectedBackend p = LLMBackend.geminiB → ∀ o',
      analyze_image_with_llm (some k) p g o = analyze_image_with_llm (some k) p g o') ∧
    (selectedBackend p = LLMBackend.openaiB → ∀ g',
      analyze_image_with_llm (some k) p g o = analyze_image_with_llm (some k) p g' o) := by
  by_cases hp : pyLower p = "gemini".data
  · refine ⟨?_, fun _ o' => ?_, fun hsel => ?_⟩
    · cases g <;> simp [analyze_image_with_llm, analyzeTry, selectedBackend, hk, hp]
    · cases g <;> simp [analyze_image_with_llm, analyzeTry, hk, hp]
    · simp [selectedBackend, hp] at hsel
  · refine ⟨?_, fun hsel => ?_, fun _ g' => ?_⟩
    · cases o <;> simp [analyze_image_with_llm, analyzeTry, selectedBackend, hk, hp]
    · simp [selectedBackend, hp] at hsel
    · cases o <;> simp [analyze_image_with_llm, analyzeTry, hk, hp]

theorem claim_C5_amended_witness :
    (analyze_image_with_llm (some "key") "gemini"
        (Except.error quotaMsg) (Except.ok "ok")).2 = [selectedBackend "gemini"] :=
  (claim_C5_amended "key" "gemini" (Except.error quotaMsg) (Except.ok "ok") (by decide)).1

/-- Helper: counting an event in a replicated list of a different event. -/
theorem count_replicate_ne {a b : ClipEv} (h : ¬ a = b) (n : Nat) :
    (List.replicate n b).count a = 0 := by
  induction n with
  | zero => rfl
  | succ n ih => simp [List.replicate_succ, List.count_cons, ih, h]

/-- The traditional handler never emits send or clear events. -/
theorem handle_traditional_events (t : TradState) :
    ((handle_traditional_method t).2).count ClipEv.evSend = 0 ∧
    ((handle_traditional_method t).2).count ClipEv.evClear = 0 := by
  have hwait : ∀ a : ClipEv, ¬ a = ClipEv.evTextPoll → (waitEvents t).count a = 0 := by
    intro a ha
    unfold waitEvents
    cases firstTruthy t.pollReads <;> simp [count_replicate_ne ha]
  have halt : ((tradAltTail t).2).count ClipEv.evSend = 0 ∧
      ((tradAltTail t).2).count ClipEv.evClear = 0 := by
    unfold tradAltTail
    by_cases h : t.altSendOk <;> cases t.altRead <;> simp [h, List.count_cons]
  unfold handle_traditional_method
  cases h : clipboardAfterWait t with
  | none =>
    simp [List.count_append, hwait ClipEv.evSend (by simp), hwait ClipEv.evClear (by simp),
      halt.1, halt.2]
  | some s =>
    by_cases hs : strTruthy s
    · by_cases he : isServerErrorEnvelope s <;>
        simp [hs, he, hwait ClipEv.evSend (by simp), hwait ClipEv.evClear (by simp)]
    · simp [hs, List.count_append, hwait ClipEv.evSend (by simp),
        hwait ClipEv.evClear (by simp), halt.1, halt.2]

/-- Every outer attempt emits exactly one shortcut-send event and no
clipboard-clear event. -/
theorem attemptStep_events (useSave : Bool) (e : AttemptEnv) :
    ((attemptStep useSave e).2).count ClipEv.evSend = 1 ∧
    ((attemptStep useSave e).2).count ClipEv.evClear = 0 := by
  unfold attemptStep
  by_cases hf : e.sendFails
  · simp [hf, List.count_cons]
  · by_cases hu : useSave
    · simp [hf, hu, handle_save_shortcut_method, List.count_cons]
    · have h := handle_traditional_events e.trad
      simp [hf, hu, List.count_cons, h.1, h.2]

/-- Outcome and attempt-count bound for the attempt loop. -/
theorem clipboardLoop_spec (useSave : Bool) (envs : Nat → AttemptEnv) :
    ∀ n i, ((∃ s, (clipboardLoop useSave envs i n).1 = Except.ok s ∧ ¬ s = "") ∨
      (clipboardLoop useSave envs i n).1 = Except.error CaptureFailure.captureExhausted) ∧
      (clipboardLoop useSave envs i n).2.count ClipEv.evSend ≤ n ∧
      (clipboardLoop useSave envs i n).2.count ClipEv.evClear = 0 := by
  intro n
  induction n with
  | zero => intro i; exact ⟨Or.inr rfl, Nat.le_refl 0, rfl⟩
  | succ n ih =>
    intro i
    have hev := attemptStep_events useSave (envs i)
    obtain ⟨hdi, hcount, hclear⟩ := ih (i + 1)
    rcases hstep : attemptStep useSave (envs i) with ⟨r, evs⟩
    rw [hstep] at hev
    simp only at hev
    rcases r with e | v
    · simp only [clipboardLoop, hstep]
      refine ⟨hdi, ?_, ?_⟩
      · simp [List.count_append, hev.1, Nat.add_comm]
        omega
      · simp [List.count_append, hev.2, hclear]
    · rcases v with _ | s
      · simp only [clipboardLoop, hstep]
        refine ⟨hdi, ?_, ?_⟩
        · simp [List.count_append, hev.1]
          omega
        · simp [List.count_append, hev.2, hclear]
      · by_cases hs : s.isEmpty
        · simp only [clipboardLoop, hstep, hs]
          refine ⟨hdi, ?_, ?_⟩
          · simp [List.count_append, hev.1]
            omega
          · simp [List.count_append, hev.2, hclear]
        · simp only [clipboardLoop, hstep, hs]
          refine ⟨Or.inl ⟨s, rfl, fun he => hs (by rw [he]; rfl)⟩, ?_, ?_⟩
          · simp [hev.1]
          · simp [hev.2]

/-- **C1**: for every capture request, `_get_clipboard_content` performs at
most `MAX_CLIPBOARD_ATTEMPTS = 5` outer attempts (one shortcut send per
attempt) and terminates in exactly one of two outcomes: a non-empty artifact
string, or the capture-exhausted scraper error.  It can neither return an
empty/`None` artifact nor loop forever (the model is structurally
terminating). -/
theorem claim_C1_extractor_dichotomy (useSave : Bool) (envs : Nat → AttemptEnv) :
    ((∃ s, (get_clipboard_content useSave envs).1 = Except.ok s ∧ ¬ s = "") ∨
      (get_clipboard_content useSave envs).1 =
        Except.error CaptureFailure.captureExhausted) ∧
    (get_clipboard_content useSave envs).2.count ClipEv.evSend ≤ MAX_CLIPBOARD_ATTEMPTS := by
  have h := clipboardLoop_spec useSave envs MAX_CLIPBOARD_ATTEMPTS 0
  exact ⟨h.1, h.2.1⟩

/-- A capture environment in which nothing ever reaches the clipboard:
every attempt's image read is empty and the clipboard clear succeeds. -/
def c6Env : CaptureEnv :=
  ⟨false, fun _ => ⟨false, none, ⟨[], none, false, none⟩⟩⟩

/-- **C6, counterexample**: the extractor does *not* clear the shared
clipboard before each outer attempt.  In a capture where all 5 outer
attempts run (5 shortcut sends), the clipboard is cleared exactly once — by
`get_chart_image_url` before the attempt loop — so attempts 2–5 run with no
fresh clear. -/
theorem claim_C6_counterexample :
    (get_chart_image_url true c6Env).2.count ClipEv.evClear = 1 ∧
    (get_chart_image_url true c6Env).2.count ClipEv.evSend = 5 := by
  decide

/-- **C6, amended**: the clipboard is cleared at most once per capture
request — before the attempt loop starts (and not at all if the best-effort
clear raises); no clear ever happens inside the attempt loop. -/
theorem claim_C6_amended (useSave : Bool) (env : CaptureEnv) :
    (get_chart_image_url useSave env).2.count ClipEv.evClear =
      (if env.clearFails then 0 else 1) ∧
    (env.clearFails = false →
      (get_chart_image_url useSave env).2.head? = some ClipEv.evClear) := by
  have h := (clipboardLoop_spec useSave env.attempts MAX_CLIPBOARD_ATTEMPTS 0).2.2
  constructor
  · by_cases hc : env.clearFails <;>
      simp [get_chart_image_url, get_clipboard_content, hc, List.count_append, h]
  · intro hc
    simp [get_chart_image_url, hc]

theorem claim_C6_amended_witness :
    (get_chart_image_url true c6Env).2.head? = some ClipEv.evClear :=
  (claim_C6_amended true c6Env).2 rfl

/-- Per-attempt environments in which the fast (image) path never finds an
image payload. -/
def c7Env : Nat → AttemptEnv :=
  fun _ => ⟨false, none, ⟨[], none, false, none⟩⟩

/-- **C7, counterexample**: when the fast image path yields no payload, the
extractor does *not* fall back to polling the text clipboard within the same
outer attempt: in a capture where the image read comes back empty in all 5
attempts, the trace contains 5 image reads and zero text polls, and the
capture fails. -/
theorem claim_C7_counterexample :
    (get_clipboard_content true c7Env).1 =
      Except.error CaptureFailure.captureExhausted ∧
    (get_clipboard_content true c7Env).2.count ClipEv.evTextPoll = 0 ∧
    (get_clipboard_content true c7Env).2.count ClipEv.evImgRead = 5 := by
  refine ⟨rfl, by decide, by decide⟩

/-- The save-shortcut attempt path never polls the text clipboard. -/
theorem clipboardLoop_fast_no_textPoll (envs : Nat → AttemptEnv) :
    ∀ n i, (clipboardLoop true envs i n).2.count ClipEv.evTextPoll = 0 := by
  intro n
  induction n with
  | zero => intro i; rfl
  | succ n ih =>
    intro i
    have hstepcount : ((attemptStep true (envs i)).2).count ClipEv.evTextPoll = 0 := by
      unfold attemptStep
      by_cases hf : (envs i).sendFails <;>
        simp [hf, handle_save_shortcut_method, List.count_cons]
    rcases hstep : attemptStep true (envs i) with ⟨r, evs⟩
    rw [hstep] at hstepcount
    simp only at hstepcount
    rcases r with e | v
    · simp [clipboardLoop, hstep, List.count_append, hstepcount, ih (i + 1)]
    · rcases v with _ | s
      · simp [clipboardLoop, hstep, List.count_append, hstepcount, ih (i + 1)]
      · by_cases hs : s.isEmpty <;>
          simp [clipboardLoop, hstep, hs, List.count_append, hstepcount, ih (i + 1)]

/-- **C7, amended**: the two paths are selected by configuration, not chained
within an attempt.  Under the fast (save-shortcut) configuration the
extractor never polls the text clipboard — an attempt whose image read is
empty simply ends, and the outer loop retries the fast path — while an
attempt that does obtain an image returns its data URL immediately with no
text polling. -/
theorem claim_C7_amended (envs : Nat → AttemptEnv) :
    (get_clipboard_content true envs).2.count ClipEv.evTextPoll = 0 ∧
    (∀ e : AttemptEnv, e.sendFails = false → ∀ bs, e.imgRead = some bs →
      attemptStep true e =
        (Except.ok (some (convert_clipboard_to_image_url bs)),
          [ClipEv.evSend, ClipEv.evImgRead])) := by
  constructor
  · exact clipboardLoop_fast_no_textPoll envs MAX_CLIPBOARD_ATTEMPTS 0
  · intro e hf bs hbs
    simp [attemptStep, hf, handle_save_shortcut_method, hbs]

theorem claim_C7_amended_witness :
    attemptStep true ⟨false, some [55], ⟨[], none, false, none⟩⟩ =
      (Except.ok (some (convert_clipboard_to_image_url [55])),
        [ClipEv.evSend, ClipEv.evImgRead]) :=
  (claim_C7_amended c7Env).2 ⟨false, some [55], ⟨[], none, false, none⟩⟩ rfl [55] rfl

/-- The clipboard text of the C2 scenario:
`{"success": false, "code": "503", "msg": "Server Error"}`. -/
def serverErrStr : String :=
  "\x7b\"success\": false, \"code\": \"503\", \"msg\": \"Server Error\"\x7d"

/-- Per-attempt environments in which the primary text poll and the final
read find nothing, the alternative shortcuts succeed, and the
alternative-shortcut re-read then yields the server-error JSON. -/
def c2Env : Nat → AttemptEnv :=
  fun _ => ⟨false, none, ⟨[], none, true, some serverErrStr⟩⟩

/-- **C2, counterexample**: the server-error JSON *can* be returned as the
final artifact of the capture.  It is a retryable envelope
(`isServerErrorEnvelope` holds), but the alternative-shortcut re-read in
`_handle_traditional_method` returns the clipboard text without the envelope
check, so a capture in which the primary poll finds nothing and the
alternative-shortcut read yields this JSON returns it as the artifact. -/
theorem claim_C2_counterexample :
    isServerErrorEnvelope serverErrStr = true ∧
    (get_clipboard_content false c2Env).1 = Except.ok serverErrStr := by
  exact ⟨by decide, rfl⟩

/-- If an attempt returns text, that text is not `serverErrStr` — unless it
came from the unchecked alternative-shortcut read. -/
theorem attemptStep_not_server_error (e : AttemptEnv)
    (halt : ¬ e.trad.altRead = some serverErrStr) (s : String)
    (hok : (attemptStep false e).1 = Except.ok (some s)) : ¬ s = serverErrStr := by
  intro hs
  subst hs
  by_cases hf : e.sendFails
  · simp [attemptStep, hf] at hok
  · simp only [attemptStep, hf] at hok
    unfold handle_traditional_method at hok
    cases hcw : clipboardAfterWait e.trad with
    | some c =>
      rw [hcw] at hok
      by_cases hc : strTruthy c
      · by_cases henv : isServerErrorEnvelope c
        · simp [hc, henv] at hok
        · simp only [hc, henv] at hok
          simp only [if_true, if_false, Bool.false_eq_true] at hok
          have : c = serverErrStr := by
            simpa using hok
          exact henv (this ▸ (by decide : isServerErrorEnvelope serverErrStr = true))
      · simp only [hc] at hok
        unfold tradAltTail at hok
        by_cases ha : e.trad.altSendOk
        · cases har : e.trad.altRead with
          | none => simp [ha, har] at hok
          | some a =>
            rw [har] at hok
            by_cases hta : strTruthy a
            · simp only [ha, hta] at hok
              simp only [if_true] at hok
              have : a = serverErrStr := by simpa using hok
              exact halt (by rw [har, this])
            · simp [ha, hta] at hok
        · simp [ha] at hok
    | none =>
      rw [hcw] at hok
      simp only at hok
      unfold tradAltTail at hok
      by_cases ha : e.trad.altSendOk
      · cases har : e.trad.altRead with
        | none => simp [ha, har] at hok
        | some a =>
          rw [har] at hok
          by_cases hta : strTruthy a
          · simp only [ha, hta] at hok
            simp only [if_true] at hok
            have : a = serverErrStr := by simpa using hok
            exact halt (by rw [har, this])
          · simp [ha, hta] at hok
      · simp [ha] at hok

/-- The attempt loop never returns `serverErrStr` when no alternative-shortcut
read yields it. -/
theorem clipboardLoop_not_server_error (envs : Nat → AttemptEnv)
    (halt : ∀ i, ¬ (envs i).trad.altRead = some serverErrStr) :
    ∀ n i, ¬ (clipboardLoop false envs i n).1 = Except.ok serverErrStr := by
  intro n
  induction n with
  | zero => intro i h; exact Except.noConfusion h
  | succ n ih =>
    intro i h
    rcases hstep : attemptStep false (envs i) with ⟨r, evs⟩
    rcases r with e | v
    · rw [clipboardLoop, hstep] at h
      exact ih (i + 1) h
    · rcases v with _ | s
      · rw [clipboardLoop, hstep] at h
        exact ih (i + 1) h
      · by_cases hs : s.isEmpty
        · rw [clipboardLoop, hstep] at h
          simp only [hs, if_true] at h
          exact ih (i + 1) h
        · rw [clipboardLoop, hstep] at h
          simp only [hs, Bool.false_eq_true, if_false] at h
          have hss : s = serverErrStr := by
            have := h
            simp at this
            exact this
          exact attemptStep_not_server_error (envs i) (halt i) s
            (by rw [hstep]) hss

/-- **C2, amended**: when the clipboard text obtained by the primary poll (or
the final read after the window) on the traditional path is the server-error
JSON, the handler raises the transient server error, so the outer attempt is
abandoned and retried; consequently — as long as no *alternative-shortcut*
re-read produces that JSON — the capture never returns it as the final
artifact.  (The alternative-shortcut re-read bypasses the envelope check, as
the counterexample shows.) -/
theorem claim_C2_amended :
    (∀ t : TradState, clipboardAfterWait t = some serverErrStr →
      (handle_traditional_method t).1 = Except.error ClipErr.serverError) ∧
    (∀ envs : Nat → AttemptEnv,
      (∀ i, ¬ (envs i).trad.altRead = some serverErrStr) →
      ¬ (get_clipboard_content false envs).1 = Except.ok serverErrStr) := by
  constructor
  · intro t ht
    unfold handle_traditional_method
    rw [ht]
    have h1 : strTruthy serverErrStr = true := by decide
    have h2 : isServerErrorEnvelope serverErrStr = true := by decide
    simp [h1, h2]
  · intro envs heach
    exact clipboardLoop_not_server_error envs heach MAX_CLIPBOARD_ATTEMPTS 0

theorem claim_C2_amended_witness :
    (handle_traditional_method ⟨[some serverErrStr], none, false, none⟩).1 =
      Except.error ClipErr.serverError ∧
    ¬ (get_clipboard_content false (fun _ => ⟨false, none, ⟨[], none, false, none⟩⟩)).1 =
      Except.ok serverErrStr :=
  ⟨claim_C2_amended.1 ⟨[some serverErrStr], none, false, none⟩ (by decide),
   claim_C2_amended.2 (fun _ => ⟨false, none, ⟨[], none, false, none⟩⟩)
     (fun i h => Option.noConfusion h)⟩

/-- `alertTimes` on a cons cell that fired. -/
theorem alertTimes_cons_true (t : ℚ) (rest : List (ℚ × Bool)) :
    alertTimes ((t, true) :: rest) = t :: alertTimes rest := by
  simp [alertTimes, List.filter_cons]

/-- `alertTimes` on a cons cell that did not fire. -/
theorem alertTimes_cons_false (t : ℚ) (rest : List (ℚ × Bool)) :
    alertTimes ((t, false) :: rest) = alertTimes rest := by
  simp [alertTimes, List.filter_cons]

/-- Invariant for the monitor loop: alert times are pairwise separated by
strictly more than the 60-second debounce window (in fact by 90 s = debounce
sleep + poll interval), and no alert fires before the start time. -/
theorem monitorRun_alert_separation (minP maxP : ℚ) (prices : Nat → FetchResult) :
    ∀ n i t, (alertTimes (monitorRun minP maxP 30 prices i n t)).Pairwise
        (fun a b => a + 60 < b) ∧
      ∀ x ∈ alertTimes (monitorRun minP maxP 30 prices i n t), t ≤ x := by
  intro n
  induction n with
  | zero =>
    intro i t
    refine ⟨List.Pairwise.nil, fun x hx => ?_⟩
    simp [monitorRun, alertTimes] at hx
  | succ n ih =>
    intro i t
    have hrec := ih (i + 1) (t + iterDelay minP maxP 30 (prices i))
    rw [show monitorRun minP maxP 30 prices i (n + 1) t =
      (t, firesAlert minP maxP (prices i)) ::
        monitorRun minP maxP 30 prices (i + 1) n
          (t + iterDelay minP maxP 30 (prices i)) from rfl]
    by_cases hfire : firesAlert minP maxP (prices i) = true
    · have hdelay : iterDelay minP maxP 30 (prices i) = 90 := by
        cases hp : prices i with
        | price p => rw [hp] at hfire; simp [iterDelay, hfire]; norm_num
        | failed => rw [hp] at hfire; simp [firesAlert] at hfire
        | raised => rw [hp] at hfire; simp [firesAlert] at hfire
      rw [hdelay] at hrec
      rw [hfire, hdelay, alertTimes_cons_true]
      constructor
      · exact List.Pairwise.cons (fun x hx => by have := hrec.2 x hx; linarith) hrec.1
      · intro x hx
        rcases List.mem_cons.mp hx with hx | hx
        · rw [hx]
        · have := hrec.2 x hx; linarith
    · have hdnonneg : 0 ≤ iterDelay minP maxP 30 (prices i) := by
        cases hp : prices i with
        | price p => simp only [iterDelay]; split <;> norm_num
        | failed => norm_num [iterDelay, firesAlert]
        | raised => norm_num [iterDelay]
      rw [Bool.not_eq_true] at hfire
      rw [hfire, alertTimes_cons_false]
      exact ⟨hrec.1, fun x hx => by have := hrec.2 x hx; linarith⟩

/-- Out-of-band runs poll on the plain 30-second grid and never alert. -/
theorem monitorRun_out_of_band (minP maxP : ℚ) (prices : Nat → FetchResult)
    (hout : ∀ i, firesAlert minP maxP (prices i) = false ∧ ¬ prices i = FetchResult.raised) :
    ∀ n i t, monitorRun minP maxP 30 prices i n t =
      (List.range n).map (fun j : ℕ => (t + 30 * (j : ℚ), false)) := by
  intro n
  induction n with
  | zero => intro i t; rfl
  | succ n ih =>
    intro i t
    have hdelay : iterDelay minP maxP 30 (prices i) = 30 := by
      cases hp : prices i with
      | price p =>
        have hf := (hout i).1; rw [hp] at hf; simp [iterDelay, hf]
      | failed => simp [iterDelay, firesAlert]
      | raised => exact absurd hp (hout i).2
    rw [show monitorRun minP maxP 30 prices i (n + 1) t =
      (t, firesAlert minP maxP (prices i)) ::
        monitorRun minP maxP 30 prices (i + 1) n
          (t + iterDelay minP maxP 30 (prices i)) from rfl]
    rw [(hout i).1, hdelay, ih (i + 1) (t + 30), List.range_succ_eq_map,
      List.map_cons, List.map_map]
    congr 1
    · norm_num
    · apply List.map_congr_left
      intro j hj
      simp only [Function.comp_apply]
      push_cast
      refine Prod.ext ?_ rfl
      ring

/-- **C9**: after the monitor fires an alert, no second alert fires within the
60-second debounce window (successive alerts are in fact at least 90 s
apart: the implementation sleeps through the debounce window plus the base
interval before the next poll); and while the price stays outside the band
the loop polls exactly once per base interval (30 s) and fires no alert. -/
theorem claim_C9_monitor_debounce (minP maxP : ℚ) (prices : Nat → FetchResult) (n : Nat) :
    (alertTimes (monitor_loop minP maxP prices n)).Pairwise (fun a b => a + 60 < b) ∧
    ((∀ i, ∃ p, prices i = FetchResult.price p ∧
        ¬ (p ≠ 0 ∧ minP ≤ p ∧ p ≤ maxP)) →
      monitor_loop minP maxP prices n =
        (List.range n).map (fun j : ℕ => (30 * (j : ℚ), false))) := by
  constructor
  · exact (monitorRun_alert_separation minP maxP prices n 0 0).1
  · intro hout
    have hout2 : ∀ i, firesAlert minP maxP (prices i) = false ∧
        ¬ prices i = FetchResult.raised := by
      intro i
      obtain ⟨p, hp, hb⟩ := hout i
      refine ⟨?_, by rw [hp]; intro h; exact FetchResult.noConfusion h⟩
      rw [hp]
      simpa [firesAlert] using hb
    have hrun := monitorRun_out_of_band minP maxP prices hout2 n 0 0
    rw [monitor_loop, hrun]
    apply List.map_congr_left
    intro j hj
    norm_num

theorem claim_C9_witness :
    monitor_loop 90000 91000 (fun _ => FetchResult.price 100) 3 =
      (List.range 3).map (fun j : ℕ => (30 * (j : ℚ), false)) :=
  (claim_C9_monitor_debounce 90000 91000 (fun _ => FetchResult.price 100) 3).2
    (fun _ => ⟨100, rfl, by norm_num⟩)

/-- The C3 counterexample input: the first matched URL
(`https://www.tradingview.com/x/A`) is a proper prefix of the second matched
URL (`https://www.tradingview.com/x/Ahttps`). -/
def c3Input : String :=
  "https://www.tradingview.com/x/A https://www.tradingview.com/x/Ahttps://www.tradingview.com/x/B"

/-- What the code produces on `c3Input`: replace-all of the first matched URL
consumes the prefix of the second match, the `matched_url in output_string`
guard then skips the second match, and a full share link survives. -/
def c3Output : String :=
  "https://s3.tradingview.com/snapshots/a/A.png https://s3.tradingview.com/snapshots/a/A.pnghttps://www.tradingview.com/x/B"

set_option maxRecDepth 20000 in
/-- **C3, counterexample**: the normalizer is neither idempotent nor
pattern-eliminating on all inputs.  On `c3Input` the output still contains
the share-link instance `https://www.tradingview.com/x/B`, and running the
normalizer a second time changes the output. -/
theorem claim_C3_counterexample :
    convert_link_to_image_url (some c3Input) = some c3Output ∧
    ¬ convert_link_to_image_url (convert_link_to_image_url (some c3Input)) =
        convert_link_to_image_url (some c3Input) ∧
    HasShareLink c3Output.data := by
  refine ⟨by decide, by decide, ?_⟩
  refine ⟨("https://s3.tradingview.com/snapshots/a/A.png " ++
      "https://s3.tradingview.com/snapshots/a/A.png").data,
    header1 ++ ['B'], [], by decide, header1, ['B'], [], Or.inl rfl, by decide,
    by decide, Or.inl rfl, by decide⟩

/-! ### Structure of `tryHeader` and `tryMatch` -/

/-- The fixed prefix `https://` shared by the three headers. -/
def H8 : List Char := "https://".data

theorem tryHeader_eq {s h r : List Char} (hth : tryHeader s = some (h, r)) :
    s = h ++ r ∧ (h = header1 ∨ h = header2 ∨ h = header0) := by
  unfold tryHeader at hth
  by_cases h1 : header1.isPrefixOf s
  · rw [if_pos h1] at hth
    obtain ⟨hh, hr⟩ := Prod.mk.injEq .. ▸ Option.some.injEq .. ▸ hth
    obtain ⟨t, ht⟩ := List.isPrefixOf_iff_prefix.mp h1
    subst hh
    refine ⟨?_, Or.inl rfl⟩
    rw [← hr, ← ht, List.drop_left]
  · rw [if_neg h1] at hth
    by_cases h2 : header2.isPrefixOf s
    · rw [if_pos h2] at hth
      obtain ⟨hh, hr⟩ := Prod.mk.injEq .. ▸ Option.some.injEq .. ▸ hth
      obtain ⟨t, ht⟩ := List.isPrefixOf_iff_prefix.mp h2
      subst hh
      refine ⟨?_, Or.inr (Or.inl rfl)⟩
      rw [← hr, ← ht, List.drop_left]
    · rw [if_neg h2] at hth
      by_cases h0 : header0.isPrefixOf s
      · rw [if_pos h0] at hth
        obtain ⟨hh, hr⟩ := Prod.mk.injEq .. ▸ Option.some.injEq .. ▸ hth
        obtain ⟨t, ht⟩ := List.isPrefixOf_iff_prefix.mp h0
        subst hh
        refine ⟨?_, Or.inr (Or.inr rfl)⟩
        rw [← hr, ← ht, List.drop_left]
      · rw [if_neg h0] at hth
        exact Option.noConfusion hth

/-- A prefix determines the `take` of any length within it. -/
theorem take_eq_of_prefix {p l : List Char} (h : p <+: l) {n : Nat}
    (hn : n ≤ p.length) : l.take n = p.take n := by
  obtain ⟨t, ht⟩ := h
  rw [← ht, List.take_append_of_le_length hn]

/-- If the first `n` characters differ, one list is not a prefix of the
other, whatever follows. -/
theorem isPrefixOf_false_of_take_ne {p a : List Char} {n : Nat}
    (hn : n ≤ p.length) (hna : n ≤ a.length) (hne : ¬ p.take n = a.take n) :
    ∀ x, p.isPrefixOf (a ++ x) = false := by
  intro x
  by_contra hcon
  rw [Bool.not_eq_false] at hcon
  have hp := List.isPrefixOf_iff_prefix.mp hcon
  have h1 : (a ++ x).take n = p.take n := take_eq_of_prefix hp hn
  have h2 : (a ++ x).take n = a.take n := List.take_append_of_le_length hna
  exact hne (h1 ▸ h2)

theorem header1_not_prefix_header2 : ∀ x, header1.isPrefixOf (header2 ++ x) = false :=
  isPrefixOf_false_of_take_ne (p := header1) (a := header2) (n := 9)
    (by decide) (by decide) (by decide)

theorem header1_not_prefix_header0 : ∀ x, header1.isPrefixOf (header0 ++ x) = false :=
  isPrefixOf_false_of_take_ne (p := header1) (a := header0) (n := 9)
    (by decide) (by decide) (by decide)

theorem header2_not_prefix_header0 : ∀ x, header2.isPrefixOf (header0 ++ x) = false :=
  isPrefixOf_false_of_take_ne (p := header2) (a := header0) (n := 9)
    (by decide) (by decide) (by decide)

/-- `tryHeader` recognizes each of the three headers at the front of a
string (the alternatives are mutually exclusive from position 8 on). -/
theorem tryHeader_append {h : List Char}
    (hd : h = header1 ∨ h = header2 ∨ h = header0) (x : List Char) :
    tryHeader (h ++ x) = some (h, x) := by
  rcases hd with rfl | rfl | rfl
  · unfold tryHeader
    rw [if_pos (List.isPrefixOf_iff_prefix.mpr (List.prefix_append _ _))]
    rw [List.drop_left]
  · unfold tryHeader
    rw [header1_not_prefix_header2]
    rw [if_neg (by simp)]
    rw [if_pos (List.isPrefixOf_iff_prefix.mpr (List.prefix_append _ _))]
    rw [List.drop_left]
  · unfold tryHeader
    rw [header1_not_prefix_header0, header2_not_prefix_header0]
    rw [if_neg (by simp), if_neg (by simp)]
    rw [if_pos (List.isPrefixOf_iff_prefix.mpr (List.prefix_append _ _))]
    rw [List.drop_left]

/-- Structure of a successful `tryMatch`: the matched text is a header, then
the nonempty all-alnum id, then an optional slash, and the input splits as
match text plus remainder. -/
theorem tryMatch_eq {s : List Char} {m : LinkMatch} {rest : List Char}
    (htm : tryMatch s = some (m, rest)) :
    ∃ h opt, (h = header1 ∨ h = header2 ∨ h = header0) ∧
      m.text = h ++ m.id ++ opt ∧ ¬ m.id = [] ∧
      (∀ c ∈ m.id, isAlnum c = true) ∧ (opt = [] ∨ opt = ['/']) ∧
      s = m.text ++ rest := by
  unfold tryMatch at htm
  split at htm
  · exact Option.noConfusion htm
  · rename_i hpair h r1 hth
    simp only at htm
    obtain ⟨hs, hd⟩ := tryHeader_eq hth
    split at htm
    · exact Option.noConfusion htm
    · rename_i hmid
      have hmem : ∀ c ∈ r1.takeWhile isAlnum, isAlnum c = true :=
        fun c hc => List.mem_takeWhile_imp hc
      have hnn : ¬ r1.takeWhile isAlnum = [] := by
        intro hh
        rw [hh] at hmid
        exact hmid rfl
      have hsplit : r1.takeWhile isAlnum ++ r1.dropWhile isAlnum = r1 :=
        List.takeWhile_append_dropWhile isAlnum r1
      split at htm
      · rename_i r3 hdw
        rw [Option.some.injEq, Prod.mk.injEq] at htm
        obtain ⟨hm, hr⟩ := htm
        subst hm
        subst hr
        refine ⟨h, ['/'], hd, by simp, by simpa using hnn, by simpa using hmem,
          Or.inr rfl, ?_⟩
        rw [hs]
        conv_lhs => rw [← hsplit]
        rw [hdw]
        simp
      · rename_i hnotslash
        rw [Option.some.injEq, Prod.mk.injEq] at htm
        obtain ⟨hm, hr⟩ := htm
        subst hm
        subst hr
        refine ⟨h, [], hd, by simp, by simpa using hnn, by simpa using hmem,
          Or.inl rfl, ?_⟩
        rw [hs]
        conv_lhs => rw [← hsplit]
        simp

/-- A header followed by a nonempty alnum run always matches. -/
theorem tryMatch_isSome_of_start {h : List Char} (id : List Char)
    (hd : h = header1 ∨ h = header2 ∨ h = header0) (hnn : ¬ id = [])
    (halnum : ∀ c ∈ id, isAlnum c = true) (ω : List Char) :
    ¬ tryMatch (h ++ id ++ ω) = none := by
  intro hcon
  unfold tryMatch at hcon
  rw [show h ++ id ++ ω = h ++ (id ++ ω) from by simp] at hcon
  rw [tryHeader_append hd] at hcon
  simp only at hcon
  cases id with
  | nil => exact hnn rfl
  | cons c id' =>
    have hc : isAlnum c = true := halnum c (List.mem_cons_self c id')
    rw [show ((c :: id' ++ ω).takeWhile isAlnum) = c :: (id' ++ ω).takeWhile isAlnum from by
      simp [List.takeWhile_cons, hc]] at hcon
    simp only [List.isEmpty_cons] at hcon
    rw [if_neg (by simp)] at hcon
    split at hcon
    · exact Option.noConfusion hcon
    · exact Option.noConfusion hcon

/-- Wherever the text of a real match occurs, `tryMatch` succeeds. -/
theorem tryMatch_ne_none_of_text_prefix {s : List Char} {m : LinkMatch}
    {rest : List Char} (htm : tryMatch s = some (m, rest)) (ω : List Char) :
    ¬ tryMatch (m.text ++ ω) = none := by
  obtain ⟨h, opt, hd, htext, hnn, halnum, _, _⟩ := tryMatch_eq htm
  rw [htext, show h ++ m.id ++ opt ++ ω = h ++ m.id ++ (opt ++ ω) from by simp]
  exact tryMatch_isSome_of_start m.id hd hnn halnum (opt ++ ω)

/-- A successful match consumes at least one character. -/
theorem tryMatch_rest_lt {s : List Char} {m : LinkMatch} {rest : List Char}
    (htm : tryMatch s = some (m, rest)) : rest.length < s.length := by
  obtain ⟨h, opt, hd, htext, hnn, _, _, hsplit⟩ := tryMatch_eq htm
  have hne : ¬ m.text = [] := by
    rw [htext]
    rcases hd with rfl | rfl | rfl <;> simp [header1, header2, header0]
  rw [hsplit, List.length_append]
  cases hmt : m.text with
  | nil => exact absurd hmt hne
  | cons c l => simp [hmt]

/-- The scanner is insensitive to the exact fuel, as long as it covers the
string length. -/
theorem findMatchesF_eq_of_le :
    ∀ f₁ f₂ s, s.length ≤ f₁ → s.length ≤ f₂ →
      findMatchesF f₁ s = findMatchesF f₂ s := by
  intro f₁
  induction f₁ with
  | zero =>
    intro f₂ s h1 h2
    have : s = [] := List.length_eq_zero.mp (Nat.le_zero.mp h1)
    subst this
    cases f₂ <;> rfl
  | succ f ih =>
    intro f₂ s h1 h2
    cases s with
    | nil => cases f₂ <;> rfl
    | cons c cs =>
      cases f₂ with
      | zero => exact absurd h2 (by simp)
      | succ g =>
        simp only [findMatchesF]
        cases htm : tryMatch (c :: cs) with
        | none =>
          exact ih g cs (Nat.le_of_succ_le_succ h1) (Nat.le_of_succ_le_succ h2)
        | some pr =>
          obtain ⟨m, rest⟩ := pr
          have hlt := tryMatch_rest_lt htm
          simp only [List.length_cons] at h1 h2 hlt
          exact congrArg (List.cons m) (ih g rest (by omega) (by omega))

theorem findMatches_cons_some {c : Char} {cs : List Char} {m : LinkMatch}
    {rest : List Char} (htm : tryMatch (c :: cs) = some (m, rest)) :
    findMatches (c :: cs) = m :: findMatches rest := by
  unfold findMatches
  have hlt := tryMatch_rest_lt htm
  simp only [List.length_cons, findMatchesF, htm]
  rw [findMatchesF_eq_of_le cs.length rest.length rest (by simp at hlt; omega)
    (Nat.le_refl _)]

theorem findMatches_cons_none {c : Char} {cs : List Char}
    (htm : tryMatch (c :: cs) = none) :
    findMatches (c :: cs) = findMatches cs := by
  unfold findMatches
  simp only [List.length_cons, findMatchesF, htm]

/-- If the scanner finds nothing, no suffix matches. -/
theorem findMatches_nil_suffix :
    ∀ s, findMatches s = [] → ∀ b, b <:+ s → tryMatch b = none := by
  intro s
  induction s with
  | nil =>
    intro _ b hb
    rw [List.suffix_nil.mp hb]
    rfl
  | cons c cs ih =>
    intro hs b hb
    cases htm : tryMatch (c :: cs) with
    | some pr =>
      obtain ⟨m, rest⟩ := pr
      rw [findMatches_cons_some htm] at hs
      exact List.noConfusion hs
    | none =>
      rcases List.suffix_cons_iff.mp hb with hb | hb
      · rw [hb]; exact htm
      · rw [findMatches_cons_none htm] at hs
        exact ih hs b hb

/-- Conversely, if no suffix matches, the scanner finds nothing. -/
theorem findMatches_nil_of_no_match :
    ∀ s, (∀ b, b <:+ s → tryMatch b = none) → findMatches s = [] := by
  intro s
  induction s with
  | nil => intro _; rfl
  | cons c cs ih =>
    intro hnone
    rw [findMatches_cons_none (hnone (c :: cs) (List.suffix_refl _))]
    exact ih (fun b hb => hnone b (hb.trans (List.suffix_cons c cs)))

/-- Decomposition of a string with exactly one match: a prefix on which no
match starts, the match, and a remainder on which no match starts either. -/
theorem findMatches_single_decomp :
    ∀ s : List Char, ∀ m : LinkMatch, findMatches s = [m] →
      ∃ a rest, s = a ++ (m.text ++ rest) ∧
        tryMatch (m.text ++ rest) = some (m, rest) ∧
        (∀ b, b <:+ s → (m.text ++ rest).length < b.length → tryMatch b = none) ∧
        (∀ b, b <:+ rest → tryMatch b = none) := by
  intro s
  induction s with
  | nil => intro m hm; exact absurd hm (by simp [findMatches, findMatchesF])
  | cons c cs ih =>
    intro m hm
    cases htm : tryMatch (c :: cs) with
    | some pr =>
      obtain ⟨m', rest'⟩ := pr
      rw [findMatches_cons_some htm] at hm
      injection hm with hm' hrest'
      subst hm'
      obtain ⟨_, _, _, _, _, _, _, hsplit⟩ := tryMatch_eq htm
      refine ⟨[], rest', by simpa using hsplit, by rw [← hsplit]; exact htm, ?_, ?_⟩
      · intro b hb hlen
        exfalso
        have hle := List.IsSuffix.length_le hb
        rw [hsplit] at hle
        simp only [List.length_append] at hle hlen
        omega
      · exact findMatches_nil_suffix rest' hrest' 
    | none =>
      rw [findMatches_cons_none htm] at hm
      obtain ⟨a', rest, hsplit, hmatch, hbefore, hafter⟩ := ih m hm
      refine ⟨c :: a', rest, by rw [hsplit]; rfl, hmatch, ?_, hafter⟩
      intro b hb hlen
      rcases List.suffix_cons_iff.mp hb with hb | hb
      · rw [hb]; exact htm
      · exact hbefore b hb hlen

/-- `containsSub` is the existence of an occurrence. -/
theorem containsSub_iff {needle : List Char} :
    ∀ hay, containsSub needle hay = true ↔ ∃ x y, hay = x ++ y ∧ needle <+: y := by
  intro hay
  induction hay with
  | nil =>
    simp only [containsSub, List.isEmpty_iff]
    constructor
    · intro h
      exact ⟨[], [], rfl, by rw [h]⟩
    · rintro ⟨x, y, hxy, hny⟩
      obtain ⟨hx, hy⟩ := List.append_eq_nil.mp hxy.symm
      rw [hy] at hny
      exact List.prefix_nil.mp hny
  | cons c tl ih =>
    simp only [containsSub, Bool.or_eq_true]
    constructor
    · rintro (h | h)
      · exact ⟨[], c :: tl, rfl, List.isPrefixOf_iff_prefix.mp h⟩
      · obtain ⟨x, y, hxy, hny⟩ := ih.mp h
        exact ⟨c :: x, y, by rw [hxy]; rfl, hny⟩
    · rintro ⟨x, y, hxy, hny⟩
      cases x with
      | nil =>
        left
        rw [List.isPrefixOf_iff_prefix]
        have hy : y = c :: tl := by simpa using hxy.symm
        exact hy ▸ hny
      | cons d x' =>
        right
        injection hxy with h1 h2
        exact ih.mpr ⟨x', y, h2, hny⟩

/-- If the needle occurs nowhere in `s`, `replaceAllF` is the identity,
whatever the fuel. -/
theorem replaceAllF_id {needle r : List Char} :
    ∀ f s, (∀ b, b <:+ s → ¬ needle <+: b) → replaceAllF f s needle r = s := by
  intro f
  induction f with
  | zero => intro s _; rfl
  | succ f ih =>
    intro s hno
    cases s with
    | nil => rfl
    | cons c cs =>
      have hp : needle.isPrefixOf (c :: cs) = false := by
        by_contra hcon
        rw [Bool.not_eq_false] at hcon
        exact hno (c :: cs) (List.suffix_refl _) (List.isPrefixOf_iff_prefix.mp hcon)
      simp only [replaceAllF, hp, Bool.false_eq_true, if_false]
      rw [ih cs (fun b hb => hno b (hb.trans (List.suffix_cons c cs)))]

/-- One replaced occurrence: if the needle occurs nowhere in `a` (even
overlapping into what follows) and nowhere in `rest`, the replacement
rewrites exactly the middle occurrence. -/
theorem replaceAllF_decomp {needle r : List Char} (hne : ¬ needle = []) :
    ∀ a rest f, (a ++ needle ++ rest).length ≤ f →
      (∀ a₂, a₂ <:+ a → ¬ a₂ = [] → ¬ needle <+: (a₂ ++ needle ++ rest)) →
      (∀ b, b <:+ rest → ¬ needle <+: b) →
      replaceAllF f (a ++ needle ++ rest) needle r = a ++ r ++ rest := by
  intro a
  induction a with
  | nil =>
    intro rest f hf hbefore hafter
    obtain ⟨c, nd, hn⟩ : ∃ c nd, needle = c :: nd := by
      cases needle with
      | nil => exact absurd rfl hne
      | cons c nd => exact ⟨c, nd, rfl⟩
    subst hn
    · cases f with
      | zero => simp at hf
      | succ f =>
        simp only [List.nil_append, List.cons_append, replaceAllF, List.append_eq]
        have hpre : (c :: nd).isPrefixOf (c :: (nd ++ rest)) = true := by
          rw [List.isPrefixOf_iff_prefix]
          exact List.prefix_append (c :: nd) rest
        rw [hpre]
        simp only [if_true]
        have hdrop : List.drop (c :: nd).length (c :: (nd ++ rest)) = rest :=
          List.drop_left (c :: nd) rest
        rw [hdrop, replaceAllF_id f rest hafter]
  | cons d a' ih =>
    intro rest f hf hbefore hafter
    cases f with
    | zero => simp at hf
    | succ f =>
      have hp : needle.isPrefixOf (d :: a' ++ needle ++ rest) = false := by
        by_contra hcon
        rw [Bool.not_eq_false] at hcon
        exact hbefore (d :: a') (List.suffix_refl _) (by simp)
          (by simpa using List.isPrefixOf_iff_prefix.mp hcon)
      simp only [List.cons_append, List.append_assoc] at hp ⊢
      simp only [replaceAllF, List.append_eq]
      rw [show needle.isPrefixOf (d :: (a' ++ (needle ++ rest))) = false from by
        simpa using hp]
      simp only [Bool.false_eq_true, if_false]
      have hih := ih rest f (by simp at hf ⊢; omega)
        (fun a₂ ha ha2 => hbefore a₂ (ha.trans (List.suffix_cons d a')) ha2)
        hafter
      simp only [List.append_assoc] at hih
      rw [hih]

/-- A suffix of a concatenation is a suffix of the right part, or ends with
the whole right part preceded by a nonempty suffix of the left part. -/
theorem suffix_append_split {σ A B : List Char} (h : σ <:+ A ++ B) :
    σ <:+ B ∨ ∃ σ', ¬ σ' = [] ∧ σ' <:+ A ∧ σ = σ' ++ B := by
  obtain ⟨t, ht⟩ := h
  have hlen : t.length + σ.length = A.length + B.length := by
    have := congrArg List.length ht
    simpa using this
  by_cases hl : σ.length ≤ B.length
  · left
    have htpre : A <+: t := by
      refine List.prefix_of_prefix_length_le ⟨B, rfl⟩ ⟨σ, ht⟩ ?_
      omega
    obtain ⟨t', ht'⟩ := htpre
    rw [← ht', List.append_assoc] at ht
    exact ⟨t', List.append_cancel_left ht⟩
  · right
    have htpre : t <+: A := by
      refine List.prefix_of_prefix_length_le ⟨σ, ht⟩ ⟨B, rfl⟩ ?_
      omega
    obtain ⟨a', ha'⟩ := htpre
    refine ⟨a', ?_, ⟨t, ha'⟩, ?_⟩
    · intro hnil
      rw [hnil, List.append_nil] at ha'
      rw [← ha'] at hlen
      omega
    · rw [← ha', List.append_assoc] at ht
      exact List.append_cancel_left ht

/-- A prefix of a concatenation is a prefix of the left part, or extends the
whole left part into a prefix of the right part. -/
theorem prefix_append_split {p A B : List Char} (h : p <+: A ++ B) :
    p <+: A ∨ (A <+: p ∧ p.drop A.length <+: B) := by
  by_cases hl : p.length ≤ A.length
  · left
    exact List.prefix_of_prefix_length_le h (List.prefix_append A B) hl
  · right
    have hAp : A <+: p :=
      List.prefix_of_prefix_length_le (List.prefix_append A B) h (by omega)
    obtain ⟨p', hp'⟩ := hAp
    refine ⟨⟨p', hp'⟩, ?_⟩
    rw [← hp', List.drop_left]
    rw [← hp'] at h
    exact (List.prefix_append_right_inj A).mp h

/-- The replacement URL always ends in the `g` of `.png`. -/
theorem getLast?_newLink (id : List Char) : (newLink id).getLast? = some 'g' := by
  unfold newLink
  rw [List.getLast?_append_of_ne_nil _ (by simp)]
  rw [show (id.headD 'x').toLower :: '/' :: (id ++ pngSuffix) =
    ((id.headD 'x').toLower :: '/' :: id) ++ pngSuffix from by simp]
  rw [List.getLast?_append_of_ne_nil _ (by simp [pngSuffix])]
  rfl

/-- Every successful match begins with the scheme `https://`. -/
theorem tryMatch_some_H8 {x : List Char} {m : LinkMatch} {rest : List Char}
    (htm : tryMatch x = some (m, rest)) : H8 <+: x := by
  obtain ⟨h, opt, hd, htext, _, _, _, hsplit⟩ := tryMatch_eq htm
  have hH8h : H8 <+: h := by rcases hd with rfl | rfl | rfl <;> decide
  have hhx : h <+: x := by
    rw [hsplit, htext]
    exact ⟨m.id ++ opt ++ rest, by simp⟩
  exact hH8h.trans hhx

/-- No nonempty suffix of the replacement URL can begin a share-link match,
whatever follows it: the replacement never reintroduces the pattern. -/
theorem tryMatch_none_of_suffix_newLink {id σ : List Char}
    (halnum : ∀ c ∈ id, isAlnum c = true)
    (hσ : σ <:+ newLink id) (hne : ¬ σ = []) (ω : List Char) :
    tryMatch (σ ++ ω) = none := by
  by_contra hcon
  obtain ⟨⟨m, rest⟩, htm⟩ := Option.ne_none_iff_exists'.mp hcon
  have hH8 : H8 <+: σ ++ ω := tryMatch_some_H8 htm
  have hglast : σ.getLast? = some 'g' := by
    obtain ⟨t, ht⟩ := hσ
    have h1 := List.getLast?_append_of_ne_nil t hne
    rw [ht] at h1
    rw [← h1]
    exact getLast?_newLink id
  rcases le_or_lt σ.length 8 with hlen | hlen
  · have hσH8 : σ <+: H8 :=
      List.prefix_of_prefix_length_le (List.prefix_append σ ω) hH8
        (by simpa [H8] using hlen)
    have hg : 'g' ∈ σ := List.mem_of_mem_getLast? hglast
    have : 'g' ∈ H8 := List.IsPrefix.mem hg hσH8
    exact absurd this (by decide)
  · have hH8σ : H8 <+: σ :=
      List.prefix_of_prefix_length_le hH8 (List.prefix_append σ ω)
        (by simp only [H8]; simp; omega)
    have hσ' : σ <:+ snapPrefix ++ ((id.headD 'x').toLower :: '/' :: (id ++ pngSuffix)) := hσ
    rcases suffix_append_split hσ' with hB | ⟨σp, hσpne, hσp, hσeq⟩
    · rcases List.suffix_cons_iff.mp hB with hB1 | hB2
      · rw [hB1] at hH8σ
        rw [show H8 = 'h' :: 't' :: "tps://".data from rfl] at hH8σ
        obtain ⟨_, hH8σ⟩ := List.cons_prefix_cons.mp hH8σ
        obtain ⟨hts, _⟩ := List.cons_prefix_cons.mp hH8σ
        exact absurd hts (by decide)
      · rcases List.suffix_cons_iff.mp hB2 with hB3 | hB4
        · rw [hB3] at hH8σ
          rw [show H8 = 'h' :: "ttps://".data from rfl] at hH8σ
          obtain ⟨hhs, _⟩ := List.cons_prefix_cons.mp hH8σ
          exact absurd hhs (by decide)
        · rcases suffix_append_split hB4 with hpng | ⟨σid, hσidne, hσid, hσeq2⟩
          · have hle := List.IsSuffix.length_le hpng
            simp only [pngSuffix] at hle
            simp at hle
            omega
          · rw [hσeq2] at hH8σ
            rcases prefix_append_split hH8σ with hc1 | ⟨hc2, hc3⟩
            · have hcolon : (':' : Char) ∈ σid := List.IsPrefix.mem (by decide) hc1
              have hcid : (':' : Char) ∈ id := List.IsSuffix.mem hcolon hσid
              exact absurd (halnum ':' hcid) (by decide)
            · have hin : σid ∈ H8.inits := (List.mem_inits _ _).mpr hc2
              have hnocolon : ¬ (':' : Char) ∈ σid := by
                intro hc
                exact absurd (halnum ':' (List.IsSuffix.mem hc hσid)) (by decide)
              have hdec : ∀ x ∈ H8.inits, ¬ x = [] → ¬ (':' : Char) ∈ x →
                  ¬ H8.drop x.length <+: pngSuffix := by decide
              exact hdec σid hin hσidne hnocolon hc3
    · rw [hσeq] at hH8σ
      rcases prefix_append_split hH8σ with hd1 | ⟨hd2, hd3⟩
      · have htails : σp ∈ snapPrefix.tails := (List.mem_tails _ _).mpr hσp
        have hdec : ∀ x ∈ snapPrefix.tails, H8 <+: x → x = snapPrefix := by decide
        have hfull := hdec σp htails hd1
        rw [hfull] at hσeq
        obtain ⟨h, opt, hd, htext, _, _, _, hsplit⟩ := tryMatch_eq htm
        have hpre : h <+: σ ++ ω := by
          rw [hsplit, htext]
          exact ⟨m.id ++ opt ++ rest, by simp⟩
        have h9 : (σ ++ ω).take 9 = h.take 9 :=
          take_eq_of_prefix hpre (by rcases hd with rfl | rfl | rfl <;> decide)
        have h9' : (σ ++ ω).take 9 = "https://s".data := by
          rw [hσeq, List.append_assoc, List.take_append_of_le_length (by decide)]
          decide
        rcases hd with rfl | rfl | rfl <;>
          (rw [h9'] at h9; exact absurd h9 (by decide))
      · have htails : σp ∈ snapPrefix.tails := (List.mem_tails _ _).mpr hσp
        have hdec : ∀ x ∈ snapPrefix.tails, ¬ x = [] → ¬ x <+: H8 := by decide
        exact hdec σp htails hσpne hd2

/-- Appending on the right preserves suffixes. -/
theorem suffix_append_same {l₁ l₂ t : List Char} (h : l₁ <:+ l₂) :
    l₁ ++ t <:+ l₂ ++ t := by
  obtain ⟨u, hu⟩ := h
  exact ⟨u, by rw [← List.append_assoc, hu]⟩

/-- If no suffix of `x` starts a match, no substring of `x` is a share-link
instance. -/
theorem not_hasShareLink_of_no_match {x : List Char}
    (hno : ∀ b, b <:+ x → tryMatch b = none) : ¬ HasShareLink x := by
  rintro ⟨pre, inst, post, hx, h, id, opt, hd, hnn, halnum, _, hinst⟩
  have hsfx : inst ++ post <:+ x := ⟨pre, by rw [hx, List.append_assoc]⟩
  apply tryMatch_isSome_of_start id hd hnn halnum (opt ++ post)
  rw [show h ++ id ++ (opt ++ post) = (h ++ id ++ opt) ++ post from by simp, ← hinst]
  exact hno (inst ++ post) hsfx

/-- The normalizer output on a single-match input, in replaced form. -/
theorem convertCore_single {s : List Char} {m : LinkMatch}
    (hm : findMatches s = [m]) :
    ∀ b, b <:+ convertCore s → tryMatch b = none := by
  obtain ⟨a, rest, hsplit, hmatch, hbefore, hafter⟩ := findMatches_single_decomp s m hm
  obtain ⟨h, opt, hd, htext, hidnn, halnum, hopt, _⟩ := tryMatch_eq hmatch
  have hmtne : ¬ m.text = [] := by
    rw [htext]
    rcases hd with rfl | rfl | rfl <;> simp [header1, header2, header0]
  have hcontains : containsSub m.text s = true :=
    (containsSub_iff s).mpr ⟨a, m.text ++ rest, hsplit, List.prefix_append _ _⟩
  have hypA : ∀ a₂, a₂ <:+ a → ¬ a₂ = [] → ¬ m.text <+: (a₂ ++ (m.text ++ rest)) := by
    intro a₂ ha hne hpre
    have hsfx : a₂ ++ (m.text ++ rest) <:+ s := by
      rw [hsplit]
      exact suffix_append_same ha
    have hlen : (m.text ++ rest).length < (a₂ ++ (m.text ++ rest)).length := by
      cases a₂ with
      | nil => exact absurd rfl hne
      | cons d l => simp; omega
    have hnone := hbefore _ hsfx hlen
    obtain ⟨ω, hω⟩ := hpre
    exact tryMatch_ne_none_of_text_prefix hmatch ω (by rw [hω]; exact hnone)
  have hypB : ∀ b, b <:+ rest → ¬ m.text <+: b := by
    intro b hb hpre
    obtain ⟨ω, hω⟩ := hpre
    exact tryMatch_ne_none_of_text_prefix hmatch ω (by rw [hω]; exact hafter b hb)
  have hout : convertCore s = a ++ (newLink m.id ++ rest) := by
    rw [convertCore, hm]
    simp only [List.foldl_cons, List.foldl_nil, convertStep, hcontains, if_true]
    rw [replaceAll, List.isEmpty_eq_false.mpr hmtne]
    simp only [Bool.false_eq_true, if_false]
    have hdec := replaceAllF_decomp (r := newLink m.id) hmtne a rest s.length
      (by rw [hsplit]; simp)
      (by intro a₂ ha hne
          have := hypA a₂ ha hne
          simpa [List.append_assoc] using this)
      hypB
    rw [show a ++ m.text ++ rest = a ++ (m.text ++ rest) from by simp] at hdec
    rw [show a ++ newLink m.id ++ rest = a ++ (newLink m.id ++ rest) from by simp] at hdec
    conv_lhs => rw [hsplit]
    rw [← hdec]
    congr 1
    rw [hsplit]
  intro b hb
  rw [hout] at hb
  rcases suffix_append_split hb with hcase1 | ⟨σ', hσ'ne, hσ'a, hbeq⟩
  · rcases suffix_append_split hcase1 with hrest | ⟨σ, hσne, hσnl, hbeq2⟩
    · exact hafter b hrest
    · rw [hbeq2]
      exact tryMatch_none_of_suffix_newLink halnum hσnl hσne rest
  · by_contra hne2
    obtain ⟨⟨m2, rest2⟩, htm2⟩ := Option.ne_none_iff_exists'.mp hne2
    have hold : tryMatch (σ' ++ (m.text ++ rest)) = none := by
      apply hbefore
      · rw [hsplit]
        exact suffix_append_same hσ'a
      · cases σ' with
        | nil => exact absurd rfl hσ'ne
        | cons d l => simp; omega
    obtain ⟨h2, opt2, hd2, htext2, hid2nn, halnum2, hopt2, hsplit2⟩ := tryMatch_eq htm2
    obtain ⟨e, ids, hids⟩ : ∃ e ids, m2.id = e :: ids := by
      cases hmi : m2.id with
      | nil => exact absurd hmi hid2nn
      | cons e ids => exact ⟨e, ids, rfl⟩
    have he : isAlnum e = true := halnum2 e (by rw [hids]; exact List.mem_cons_self e ids)
    have hb2 : b = h2 ++ e :: (ids ++ opt2 ++ rest2) := by
      rw [hsplit2, htext2, hids]
      simp
    have hp2 : σ' <+: b := ⟨newLink m.id ++ rest, hbeq.symm⟩
    rcases le_or_lt (h2.length + 1) σ'.length with hcase | hcase
    · have hp1 : h2 ++ [e] <+: b := by
        rw [hb2]
        exact ⟨ids ++ opt2 ++ rest2, by simp⟩
      have hpp : h2 ++ [e] <+: σ' :=
        List.prefix_of_prefix_length_le hp1 hp2 (by simp; omega)
      obtain ⟨γ, hγ⟩ := hpp
      apply tryMatch_isSome_of_start [e] hd2 (by simp)
        (by intro c hc; rw [List.mem_singleton.mp hc]; exact he) (γ ++ (m.text ++ rest))
      rw [show h2 ++ [e] ++ (γ ++ (m.text ++ rest)) =
        (h2 ++ [e] ++ γ) ++ (m.text ++ rest) from by simp, hγ]
      exact hold
    · have hp1 : h2 <+: b := by
        rw [hsplit2, htext2]
        exact ⟨m2.id ++ opt2 ++ rest2, by simp⟩
      have hσh2 : σ' <+: h2 :=
        List.prefix_of_prefix_length_le hp2 hp1 (by omega)
      obtain ⟨ρ, hρ⟩ := hσh2
      cases ρ with
      | nil =>
        rw [List.append_nil] at hρ
        obtain ⟨τ, hτ⟩ : ∃ τ, m.text = 'h' :: τ := by
          rw [htext]
          rcases hd with rfl | rfl | rfl <;> exact ⟨_, rfl⟩
        apply tryMatch_isSome_of_start ['h'] hd2 (by simp)
          (by intro c hc; rw [List.mem_singleton.mp hc]; decide) (τ ++ rest)
        rw [show h2 ++ ['h'] ++ (τ ++ rest) = h2 ++ (('h' :: τ) ++ rest) from by simp,
          ← hτ, ← hρ]
        exact hold
      | cons d ρ' =>
        have hcancel : newLink m.id ++ rest = (d :: ρ') ++ (m2.id ++ opt2 ++ rest2) := by
          have hb3 : b = σ' ++ ((d :: ρ') ++ (m2.id ++ opt2 ++ rest2)) := by
            rw [hsplit2, htext2, ← List.append_assoc, ← List.append_assoc, hρ]
            simp
          rw [hbeq] at hb3
          exact List.append_cancel_left hb3
        have hdh : d = 'h' := by
          obtain ⟨w, hw⟩ : ∃ w, newLink m.id = 'h' :: w := ⟨_, rfl⟩
          have := congrArg List.head? hcancel
          rw [hw] at this
          simp at this
          exact this.symm
        have hsfx2 : d :: ρ' <:+ h2 := ⟨σ', hρ⟩
        have hlen2 : (d :: ρ').length < h2.length := by
          rw [← hρ]
          cases σ' with
          | nil => exact absurd rfl hσ'ne
          | cons u v => simp; omega
        have hmem2 : d :: ρ' ∈ h2.tails := (List.mem_tails _ _).mpr hsfx2
        subst hdh
        rcases hd2 with rfl | rfl | rfl
        · have hdec : ∀ x ∈ header1.tails, x.length < header1.length →
              ¬ x.head? = some 'h' := by decide
          exact hdec _ hmem2 hlen2 rfl
        · have hdec : ∀ x ∈ header2.tails, x.length < header2.length →
              ¬ x.head? = some 'h' := by decide
          exact hdec _ hmem2 hlen2 rfl
        · have hdec : ∀ x ∈ header0.tails, x.length < header0.length →
              ¬ x.head? = some 'h' := by decide
          exact hdec _ hmem2 hlen2 rfl

/-- Replacement with a nonempty replacement string preserves nonemptiness. -/
theorem replaceAllF_ne_nil {needle r : List Char} (hr : ¬ r = []) :
    ∀ f s, ¬ s = [] → ¬ replaceAllF f s needle r = [] := by
  intro f
  induction f with
  | zero => intro s hs; exact hs
  | succ f ih =>
    intro s hs
    cases s with
    | nil => exact absurd rfl hs
    | cons c cs =>
      simp only [replaceAllF]
      split
      · simp [hr]
      · simp

/-- A `convertStep` never empties a nonempty string. -/
theorem convertStep_ne_nil {out : List Char} {m : LinkMatch} (ho : ¬ out = []) :
    ¬ convertStep out m = [] := by
  unfold convertStep
  split
  · rw [replaceAll]
    split
    · exact ho
    · exact replaceAllF_ne_nil (by simp [newLink]) _ out ho
  · exact ho

/-- The rewrite loop never empties a nonempty string. -/
theorem convertCore_ne_nil {s : List Char} (hs : ¬ s = []) : ¬ convertCore s = [] := by
  rw [convertCore]
  generalize findMatches s = ms
  induction ms generalizing s with
  | nil => exact hs
  | cons m ms ih =>
    simp only [List.foldl_cons]
    exact ih (s := convertStep s m) (convertStep_ne_nil hs)

/-- With no matches, the rewrite loop is the identity. -/
theorem convertCore_nil_matches {s : List Char} (hm : findMatches s = []) :
    convertCore s = s := by
  rw [convertCore, hm]
  rfl

/-- **C3, amended**: for every input in which the share-link pattern matches
at most once, the normalizer is idempotent and its output contains no
substring matching the share-link pattern.  (With two or more matches the
claim fails, as the counterexample shows: a matched URL that is a proper
prefix of a later matched URL corrupts it under replace-all, and a share
link can survive.) -/
theorem claim_C3_amended (x : Option String)
    (hx : ∀ s : String, x = some s → (findMatches s.data).length ≤ 1) :
    convert_link_to_image_url (convert_link_to_image_url x) =
      convert_link_to_image_url x ∧
    (∀ t : String, convert_link_to_image_url x = some t → ¬ HasShareLink t.data) := by
  cases x with
  | none => exact ⟨rfl, fun t ht => Option.noConfusion ht⟩
  | some s =>
    by_cases hse : s.isEmpty
    · refine ⟨by simp [convert_link_to_image_url, hse], fun t ht => ?_⟩
      rw [show convert_link_to_image_url (some s) = none from by
        simp [convert_link_to_image_url, hse]] at ht
      exact Option.noConfusion ht
    · have hconv : convert_link_to_image_url (some s) =
          some (String.mk (convertCore s.data)) := by
        simp [convert_link_to_image_url, hse]
      have hsd : ¬ s.data = [] := by
        intro hh
        apply hse
        cases s with
        | mk d => rw [show d = [] from hh]; rfl
      have hnomatch : ∀ b, b <:+ convertCore s.data → tryMatch b = none := by
        have hlen := hx s rfl
        cases hfm : findMatches s.data with
        | nil =>
          rw [convertCore_nil_matches hfm]
          exact findMatches_nil_suffix _ hfm
        | cons m ms =>
          cases ms with
          | nil => exact convertCore_single hfm
          | cons m2 ms2 =>
            rw [hfm] at hlen
            simp at hlen
      have hne' : ¬ convertCore s.data = [] := convertCore_ne_nil hsd
      have houtne : (String.mk (convertCore s.data)).isEmpty = false := by
        rw [Bool.eq_false_iff]
        intro hh
        exact hne' (congrArg String.data ((String.isEmpty_iff _).mp hh))
      constructor
      · rw [hconv]
        simp only [convert_link_to_image_url, houtne, Bool.false_eq_true, if_false]
        rw [convertCore_nil_matches (findMatches_nil_of_no_match _
          (fun b hb => hnomatch b hb))]
      · intro t ht
        rw [hconv, Option.some.injEq] at ht
        apply not_hasShareLink_of_no_match
        intro b hb
        apply hnomatch
        rw [show convertCore s.data = t.data from by rw [← ht]]
        exact hb

theorem claim_C3_amended_witness :
    (∀ s : String, (some "https://www.tradingview.com/x/AbCd12/" : Option String) =
        some s → (findMatches s.data).length ≤ 1) ∧
    convert_link_to_image_url
        (convert_link_to_image_url (some "https://www.tradingview.com/x/AbCd12/")) =
      convert_link_to_image_url (some "https://www.tradingview.com/x/AbCd12/") := by
  have hx : ∀ s : String, (some "https://www.tradingview.com/x/AbCd12/" : Option String) =
      some s → (findMatches s.data).length ≤ 1 := by
    intro s hs
    injection hs with h
    rw [← h]
    decide
  exact ⟨hx, (claim_C3_amended (some "https://www.tradingview.com/x/AbCd12/") hx).1⟩

end TView
